import Mathlib

/-!
Verification of the CustomRender DOM-throttling scheduler (src/index.ts).

The plugin hides freshly inserted DOM elements behind a pending CSS class
and reveals them gradually across animation frames.  This file gives a
shallow embedding of the scheduler core:

* DOM elements are opaque identifiers (`Elem := Nat`); an inserted subtree
  is a `DomTree` carrying, per node, the element id, its `tagName`, its
  `id` attribute, and whether it has the `data-dom-vsync-ignore` attribute.
* The mutable module state (`pendingQueue`, `pendingSet`, the set of
  elements carrying the pending class, `rafId`, `isFlushing`) is the
  record `SchedState`.  The JS `Set` is insertion ordered, so it is
  embedded as a duplicate-free list.
* `performance.now()` is embedded as an explicit clock `time : Nat → Nat`;
  `time 0` is the value captured in `start` at the top of `flushQueue`,
  and `time k` is the value returned by the call made by the time check
  that follows the k-th reveal of that flush step.
* The `TreeWalker` used by `enqueueTree` never applies its filter to the
  walker root; for every other visited element the filter first returns
  FILTER_SKIP for structural elements (`shouldSkipElement`), then
  FILTER_REJECT for elements carrying the ignore attribute.  The sequence
  of elements the walk enqueues is computed by `acceptedNodes` /
  `acceptedNodesList`.
-/

/-- A DOM element reference, opaque to the scheduler: only identity matters. -/
abbrev Elem := Nat

/-- An element subtree as seen by the intake walk: element id, `tagName`,
`id` attribute, presence of the `data-dom-vsync-ignore` attribute, children. -/
inductive DomTree where
  | node (el : Elem) (tag : String) (idStr : String) (ignore : Bool) (children : List DomTree)

/-- The element id of the root of a subtree. -/
def DomTree.el : DomTree → Elem
  | .node e _ _ _ _ => e

/-- The `tagName` of the root of a subtree. -/
def DomTree.tag : DomTree → String
  | .node _ t _ _ _ => t

/-- The `id` attribute of the root of a subtree. -/
def DomTree.idStr : DomTree → String
  | .node _ _ i _ _ => i

/-- Whether the root of a subtree carries `data-dom-vsync-ignore`. -/
def DomTree.ignore : DomTree → Bool
  | .node _ _ _ g _ => g

/-- The child subtrees of the root. -/
def DomTree.children : DomTree → List DomTree
  | .node _ _ _ _ cs => cs

/-- `EXCLUDED_TAGS` from src/index.ts. -/
def EXCLUDED_TAGS : List String := ["HTML", "HEAD", "BODY", "STYLE", "SCRIPT", "LINK", "META"]

/-- `QUEUE_LIMIT` from src/index.ts: the overflow threshold. -/
def QUEUE_LIMIT : Nat := 4000

/-- `shouldSkipElement` from src/index.ts: the root container (`id === "app-mount"`)
and structural/non-visual tags are skipped. -/
def shouldSkipElement (t : DomTree) : Bool :=
  t.idStr == "app-mount" || EXCLUDED_TAGS.contains t.tag

mutual
/-- The elements the `TreeWalker` filter accepts inside subtree `t`, in document
order, as in `enqueueTree` (src/index.ts): a structural element is skipped but
its children are walked (FILTER_SKIP); an element carrying the ignore attribute
is rejected together with its whole subtree (FILTER_REJECT); every other
element is accepted and its children are walked.  Note the skip test runs
before the ignore test, exactly as in the source filter. -/
def acceptedNodes : DomTree → List Elem
  | .node e tg i g cs =>
    if shouldSkipElement (.node e tg i g cs) then acceptedNodesList cs
    else if g then []
    else e :: acceptedNodesList cs

/-- `acceptedNodes` over a list of sibling subtrees, in order. -/
def acceptedNodesList : List DomTree → List Elem
  | [] => []
  | c :: cs => acceptedNodes c ++ acceptedNodesList cs
end

mutual
/-- All element ids of a subtree, in document order. -/
def elems : DomTree → List Elem
  | .node e _ _ _ cs => e :: elemsList cs

/-- All element ids of a list of sibling subtrees. -/
def elemsList : List DomTree → List Elem
  | [] => []
  | c :: cs => elems c ++ elemsList cs
end

/-- `occursIn n t`: the node `n` is a (not necessarily proper) subtree of `t`. -/
inductive occursIn : DomTree → DomTree → Prop
  | refl (t : DomTree) : occursIn t t
  | child {n c t : DomTree} : c ∈ t.children → occursIn n c → occursIn n t

/-- Structural induction for `DomTree` with the child hypothesis packaged as
list membership. -/
def domInd {P : DomTree → Prop}
    (h : ∀ e tg i g cs, (∀ c ∈ cs, P c) → P (.node e tg i g cs)) :
    ∀ t, P t
  | .node e tg i g cs => h e tg i g cs (fun c _ => domInd h c)
termination_by t => sizeOf t
decreasing_by
  rename_i hc
  have := List.sizeOf_lt_of_mem hc
  simp only [DomTree.node.sizeOf_spec]
  omega

/-- The scheduler's mutable module state (src/index.ts):
`pendingQueue`, `pendingSet` (a JS `Set`, insertion ordered, embedded as a
duplicate-free list), the set of elements currently carrying the
`dom-vsync-pending` class (`marked`), whether an animation-frame callback is
outstanding (`rafId`), and the `isFlushing` flag. -/
structure SchedState where
  pendingQueue : List Elem
  pendingSet : List Elem
  marked : List Elem
  rafId : Bool
  isFlushing : Bool
deriving DecidableEq, Repr

/-- The state at plugin start: everything empty, nothing scheduled. -/
def initState : SchedState :=
  { pendingQueue := [], pendingSet := [], marked := [], rafId := false, isFlushing := false }

/-- `element.classList.add(PENDING_CLASS)`: a class list never holds
duplicates, so adding is conditional on membership. -/
def classAdd (m : List Elem) (e : Elem) : List Elem :=
  if e ∈ m then m else m ++ [e]

/-- `element.classList.remove(PENDING_CLASS)`: the Reveal Action. -/
def classRemove (m : List Elem) (e : Elem) : List Elem :=
  m.erase e

/-- `enqueueElement` from src/index.ts: no-op when already pending, otherwise
apply the pending class, add to the set and push onto the end of the queue. -/
def enqueueElement (s : SchedState) (e : Elem) : SchedState :=
  if e ∈ s.pendingSet then s
  else
    { s with
      marked := classAdd s.marked e
      pendingSet := s.pendingSet ++ [e]
      pendingQueue := s.pendingQueue ++ [e] }

/-- `revealAllPending` from src/index.ts: cancel any outstanding frame
callback, remove the pending class from every element of `pendingSet`
(iterated in insertion order), clear the set, empty the queue, clear the
flushing flag. -/
def revealAllPending (s : SchedState) : SchedState :=
  { pendingQueue := []
    pendingSet := []
    marked := s.pendingSet.foldl classRemove s.marked
    rafId := false
    isFlushing := false }

/-- `scheduleFlush` from src/index.ts: when active, with no callback
outstanding and a non-empty queue, request an animation frame and raise the
flushing flag. -/
def scheduleFlush (active : Bool) (s : SchedState) : SchedState :=
  if active = false then s
  else if s.rafId || s.pendingQueue.isEmpty then s
  else { s with rafId := true, isFlushing := true }

/-- The drain loop of `flushQueue` (src/index.ts), acting on the reversed
queue so that `pendingQueue.pop()` is the head.  Each iteration pops one
element, deletes it from the set, removes the pending class, increments
`ops`, then breaks if `ops >= maxOps` and otherwise breaks if
`performance.now() - start >= frameBudgetMs` — the count check strictly
before the time check.  Returns the remaining (still reversed) queue, the
new set, the new class state, and the list of elements revealed. -/
def drainLoop (maxOps budget : Nat) (time : Nat → Nat) :
    Nat → List Elem → List Elem → List Elem →
      List Elem × List Elem × List Elem × List Elem
  | _, [], set, marked => ([], set, marked, [])
  | ops, e :: rest, set, marked =>
    let set' := set.erase e
    let marked' := classRemove marked e
    let ops' := ops + 1
    if maxOps ≤ ops' then (rest, set', marked', [e])
    else if budget ≤ time ops' - time 0 then (rest, set', marked', [e])
    else
      let r := drainLoop maxOps budget time ops' rest set' marked'
      (r.1, r.2.1, r.2.2.1, e :: r.2.2.2)

/-- The number of iterations the drain loop of `flushQueue` performs, given
the current `ops` counter and the remaining (reversed) queue. -/
def loopCount (maxOps budget : Nat) (time : Nat → Nat) : Nat → List Elem → Nat
  | _, [] => 0
  | ops, _ :: rest =>
    let ops' := ops + 1
    if maxOps ≤ ops' then 1
    else if budget ≤ time ops' - time 0 then 1
    else 1 + loopCount maxOps budget time ops' rest

/-- `flushQueue` from src/index.ts.  `active`, `maxOps` and `budget` are the
values read from the settings store at the start of the step; `time` is the
`performance.now()` clock.  Returns the new state together with the list of
elements revealed during this invocation, most recently enqueued first. -/
def flushQueue (active : Bool) (maxOps budget : Nat) (time : Nat → Nat)
    (s : SchedState) : SchedState × List Elem :=
  let s0 : SchedState := { s with rafId := false }
  if active = false then (revealAllPending s0, s0.pendingSet)
  else if s0.pendingQueue.isEmpty then ({ s0 with isFlushing := false }, [])
  else
    let r := drainLoop maxOps budget time 0 s0.pendingQueue.reverse s0.pendingSet s0.marked
    let s1 : SchedState :=
      { pendingQueue := r.1.reverse
        pendingSet := r.2.1
        marked := r.2.2.1
        rafId := false
        isFlushing := s0.isFlushing }
    if s1.pendingQueue.isEmpty then ({ s1 with isFlushing := false }, r.2.2.2)
    else (scheduleFlush active s1, r.2.2.2)

/-- The walk phase of `enqueueTree` (src/index.ts): the `TreeWalker` never
filters its own root, so the root element is enqueued unconditionally by the
first `enqueueElement(current)`, then every filter-accepted descendant is
enqueued in document order. -/
def walkEnqueue (t : DomTree) (s : SchedState) : SchedState :=
  (t.el :: acceptedNodesList t.children).foldl enqueueElement s

/-- `enqueueTree` from src/index.ts.  `anc` records whether some ancestor
strictly above the inserted root carries the ignore attribute, so that
`root.closest("[data-dom-vsync-ignore]")` is non-null iff `anc || t.ignore`.
Only element nodes reach the walk; non-element nodes are dropped before this
point and are not modelled.  After the walk, overflow past `QUEUE_LIMIT`
triggers `revealAllPending`, otherwise a frame is scheduled. -/
def enqueueTree (active : Bool) (anc : Bool) (t : DomTree) (s : SchedState) : SchedState :=
  if active = false then s
  else if anc || t.ignore then s
  else
    let s1 := walkEnqueue t s
    if QUEUE_LIMIT ≤ s1.pendingQueue.length then revealAllPending s1
    else scheduleFlush active s1

/-- `handleMutations` from src/index.ts: one invocation of the
`MutationObserver` callback.  Each mutation record contributes a list of
added roots, each root paired with the flag used as `anc` in `enqueueTree`. -/
def handleMutations (active : Bool) (muts : List (List (Bool × DomTree)))
    (s : SchedState) : SchedState :=
  if active = false then s
  else muts.foldl (fun acc rec => rec.foldl (fun a p => enqueueTree active p.1 p.2 a) acc) s

/-- The `active` settings listener (src/index.ts,
`registerSettingsListeners`): disabling reveals everything pending,
re-enabling schedules a flush. -/
def activeListener (value : Bool) (s : SchedState) : SchedState :=
  if value = false then revealAllPending s else scheduleFlush value s

/-- Scheduler state together with the live `active` setting. -/
structure World where
  sched : SchedState
  active : Bool
deriving Repr

/-- The world at plugin start. -/
def initWorld : World := { sched := initState, active := true }

/-- One observable event of the scheduler: a mutation batch, a frame
callback firing, a change of the `active` setting, or plugin teardown
(`stop()` calls `revealAllPending`). -/
inductive SchedOp where
  | mutations (muts : List (List (Bool × DomTree)))
  | flush (maxOps budget : Nat) (time : Nat → Nat)
  | setActive (value : Bool)
  | teardown

/-- The effect of one event on the world. -/
def stepOp (w : World) : SchedOp → World
  | .mutations muts => { w with sched := handleMutations w.active muts w.sched }
  | .flush maxOps budget time =>
      { w with sched := (flushQueue w.active maxOps budget time w.sched).1 }
  | .setActive v => { sched := activeListener v w.sched, active := v }
  | .teardown => { w with sched := revealAllPending w.sched }

/-- Running the scheduler from plugin start through a sequence of events. -/
def runOps (ops : List SchedOp) : World :=
  ops.foldl stepOp initWorld

/-- The state invariant maintained by the scheduler: the JS `Set` (in
insertion order) and the queue hold exactly the same references in the same
order, the queue is duplicate-free, and the elements carrying the pending
class are exactly the pending ones. -/
def StoreInv (s : SchedState) : Prop :=
  s.pendingSet = s.pendingQueue ∧ s.marked = s.pendingQueue ∧ s.pendingQueue.Nodup

/-- A subtree whose middle node carries the ignore attribute but is also an
excluded tag (`STYLE`), with an ordinary child below it. -/
def cexIgnoreSkipTree : DomTree :=
  .node 0 "DIV" "" false [.node 1 "STYLE" "" true [.node 2 "DIV" "" false []]]

/-- A subtree whose root is an excluded tag (`STYLE`) with an ordinary child. -/
def cexSkipRootTree : DomTree :=
  .node 0 "STYLE" "" false [.node 1 "DIV" "" false []]

/-- Scenario C of the spec: node `N` (element 1) carries the ignore marker
and has child `M` (element 2); the batch inserts the subtree containing both. -/
def scenarioCTree : DomTree :=
  .node 0 "DIV" "" false [.node 1 "DIV" "" true [.node 2 "DIV" "" false []]]

/-- A childless ordinary `DIV` element. -/
def leafDiv (e : Elem) : DomTree := .node e "DIV" "" false []

/-- Scenario B of the spec: a single inserted subtree containing
`QUEUE_LIMIT + 1 = 4001` qualifying elements. -/
def overflowTree : DomTree :=
  .node 0 "DIV" "" false ((List.range QUEUE_LIMIT).map (fun i => leafDiv (i + 1)))

/-- Scenario A of the spec: five elements `A`..`E` (here `1`..`5`) enqueued
in order. -/
def scenarioAState : SchedState := [1, 2, 3, 4, 5].foldl enqueueElement initState

/-- A clock under which elapsed time is always zero: an effectively
unlimited time budget. -/
def unlimitedClock : Nat → Nat := fun _ => 0

/-! ### Basic lemmas about the pending store -/

theorem enqueueElement_of_mem {s : SchedState} {e : Elem} (h : e ∈ s.pendingSet) :
    enqueueElement s e = s := by
  simp [enqueueElement, h]

theorem mem_pendingSet_enqueueElement {s : SchedState} {e a : Elem} :
    e ∈ (enqueueElement s a).pendingSet ↔ e ∈ s.pendingSet ∨ e = a := by
  by_cases h : a ∈ s.pendingSet
  · simp only [enqueueElement, if_pos h]
    constructor
    · exact Or.inl
    · rintro (he | rfl)
      · exact he
      · exact h
  · simp [enqueueElement, if_neg h]

theorem mem_pendingSet_foldl_enqueue (L : List Elem) (s : SchedState) (e : Elem) :
    e ∈ (L.foldl enqueueElement s).pendingSet ↔ e ∈ s.pendingSet ∨ e ∈ L := by
  induction L generalizing s with
  | nil => simp
  | cons a L ih =>
    simp only [List.foldl_cons, ih, mem_pendingSet_enqueueElement, List.mem_cons]
    tauto

theorem StoreInv_initState : StoreInv initState := by
  refine ⟨rfl, rfl, ?_⟩
  simp [initState]


theorem enqueueElement_fresh {s : SchedState} {e : Elem} (h : e ∉ s.pendingSet) :
    enqueueElement s e =
      { s with marked := classAdd s.marked e,
               pendingSet := s.pendingSet ++ [e],
               pendingQueue := s.pendingQueue ++ [e] } := by
  simp [enqueueElement, h]

theorem storeInv_enqueue {s : SchedState} (h : StoreInv s) (e : Elem) :
    StoreInv (enqueueElement s e) := by
  obtain ⟨hset, hmark, hnd⟩ := h
  by_cases he : e ∈ s.pendingSet
  · rw [enqueueElement_of_mem he]; exact ⟨hset, hmark, hnd⟩
  · have heq : e ∉ s.pendingQueue := hset ▸ he
    have hem : e ∉ s.marked := hmark ▸ heq
    rw [enqueueElement_fresh he]
    refine ⟨by simp [hset], by simp [hmark, classAdd, hem, heq], ?_⟩
    simpa [List.nodup_append] using ⟨hnd, heq⟩

theorem storeInv_foldl_enqueue {s : SchedState} (h : StoreInv s) (L : List Elem) :
    StoreInv (L.foldl enqueueElement s) := by
  induction L generalizing s with
  | nil => exact h
  | cons a L ih => exact ih (storeInv_enqueue h a)

theorem foldl_enqueue_fresh :
    ∀ (L : List Elem) (s : SchedState), L.Nodup → (∀ e ∈ L, e ∉ s.pendingSet) →
      (L.foldl enqueueElement s).pendingQueue = s.pendingQueue ++ L
  | [], s, _, _ => by simp
  | a :: L, s, hnd, hf => by
    have ha : a ∉ s.pendingSet := hf a (List.mem_cons_self a L)
    rw [List.foldl_cons, enqueueElement_fresh ha,
        foldl_enqueue_fresh L _ (List.Nodup.of_cons hnd)]
    · simp
    · intro e he
      simp only [List.mem_append, List.mem_singleton]
      rintro (hes | rfl)
      · exact hf e (List.mem_cons_of_mem a he) hes
      · exact (List.nodup_cons.mp hnd).1 he

theorem foldl_classRemove_self : ∀ l : List Elem, l.Nodup → l.foldl classRemove l = []
  | [], _ => rfl
  | e :: rest, h => by
    have h1 : classRemove (e :: rest) e = rest := by
      simp [classRemove]
    rw [List.foldl_cons, h1]
    exact foldl_classRemove_self rest (List.Nodup.of_cons h)

theorem foldl_classRemove_rev_append :
    ∀ (B A : List Elem), (A ++ B.reverse).Nodup → B.foldl classRemove (A ++ B.reverse) = A
  | [], A, _ => by simp
  | e :: B', A, h => by
    have hrev : (e :: B').reverse = B'.reverse ++ [e] := by simp
    have hne : e ∉ A ++ B'.reverse := by
      intro hmem
      rw [hrev, ← List.append_assoc] at h
      have := (List.nodup_append.mp h).2.2
      exact this hmem (List.mem_singleton_self e)
    have h1 : classRemove (A ++ (e :: B').reverse) e = A ++ B'.reverse := by
      rw [hrev, ← List.append_assoc]
      simp only [classRemove]
      rw [List.erase_append_right _ hne]
      simp
    rw [List.foldl_cons, h1]
    have hsub : (A ++ B'.reverse).Nodup := by
      rw [hrev, ← List.append_assoc] at h
      exact List.Nodup.of_append_left h
    exact foldl_classRemove_rev_append B' A hsub

theorem revealAllPending_of_inv {s : SchedState} (h : StoreInv s) :
    revealAllPending s =
      { pendingQueue := [], pendingSet := [], marked := [], rafId := false,
        isFlushing := false } := by
  obtain ⟨hset, hmark, hnd⟩ := h
  simp only [revealAllPending, hset, hmark]
  rw [foldl_classRemove_self _ hnd]

/-! ### Characterization of the drain loop -/

theorem drainLoop_eq (maxOps budget : Nat) (time : Nat → Nat) :
    ∀ (rq : List Elem) (ops : Nat) (set marked : List Elem),
      drainLoop maxOps budget time ops rq set marked =
        (rq.drop (loopCount maxOps budget time ops rq),
         (rq.take (loopCount maxOps budget time ops rq)).foldl classRemove set,
         (rq.take (loopCount maxOps budget time ops rq)).foldl classRemove marked,
         rq.take (loopCount maxOps budget time ops rq))
  | [], ops, set, marked => by simp [drainLoop, loopCount]
  | e :: rest, ops, set, marked => by
    by_cases h1 : maxOps ≤ ops + 1
    · simp [drainLoop, loopCount, h1, classRemove]
    · by_cases h2 : budget ≤ time (ops + 1) - time 0
      · simp [drainLoop, loopCount, h1, h2, classRemove]
      · simp only [drainLoop, loopCount, if_neg h1, if_neg h2]
        rw [drainLoop_eq maxOps budget time rest (ops + 1),
            Nat.add_comm 1 (loopCount maxOps budget time (ops + 1) rest)]
        simp [classRemove]

theorem loopCount_le_length (maxOps budget : Nat) (time : Nat → Nat) :
    ∀ (rq : List Elem) (ops : Nat), loopCount maxOps budget time ops rq ≤ rq.length
  | [], ops => by simp [loopCount]
  | e :: rest, ops => by
    by_cases h1 : maxOps ≤ ops + 1
    · simp [loopCount, h1]
    · by_cases h2 : budget ≤ time (ops + 1) - time 0
      · simp [loopCount, h1, h2]
      · simp only [loopCount, if_neg h1, if_neg h2, List.length_cons]
        have := loopCount_le_length maxOps budget time rest (ops + 1)
        omega

theorem loopCount_pos (maxOps budget : Nat) (time : Nat → Nat)
    (rq : List Elem) (ops : Nat) (h : rq ≠ []) :
    1 ≤ loopCount maxOps budget time ops rq := by
  match rq with
  | [] => exact absurd rfl h
  | e :: rest =>
    by_cases h1 : maxOps ≤ ops + 1
    · simp [loopCount, h1]
    · by_cases h2 : budget ≤ time (ops + 1) - time 0
      · simp [loopCount, h1, h2]
      · simp only [loopCount, if_neg h1, if_neg h2]
        omega

theorem loopCount_le_maxOps (maxOps budget : Nat) (time : Nat → Nat) :
    ∀ (rq : List Elem) (ops : Nat), ops < maxOps →
      ops + loopCount maxOps budget time ops rq ≤ maxOps
  | [], ops, h => by simp [loopCount]; omega
  | e :: rest, ops, h => by
    by_cases h1 : maxOps ≤ ops + 1
    · simp only [loopCount, if_pos h1]
      omega
    · by_cases h2 : budget ≤ time (ops + 1) - time 0
      · simp only [loopCount, if_neg h1, if_pos h2]
        omega
      · simp only [loopCount, if_neg h1, if_neg h2]
        have := loopCount_le_maxOps maxOps budget time rest (ops + 1) (by omega)
        omega

theorem loopCount_continue (maxOps budget : Nat) (time : Nat → Nat) :
    ∀ (rq : List Elem) (ops i : Nat), ops < i →
      i < ops + loopCount maxOps budget time ops rq →
      ¬ maxOps ≤ i ∧ ¬ budget ≤ time i - time 0
  | [], ops, i, hlt, hup => by
    simp [loopCount] at hup
    omega
  | e :: rest, ops, i, hlt, hup => by
    by_cases h1 : maxOps ≤ ops + 1
    · simp only [loopCount, if_pos h1] at hup
      omega
    · by_cases h2 : budget ≤ time (ops + 1) - time 0
      · simp only [loopCount, if_neg h1, if_pos h2] at hup
        omega
      · simp only [loopCount, if_neg h1, if_neg h2] at hup
        rcases Nat.eq_or_lt_of_le hlt with heq | hlt'
        · exact heq ▸ ⟨h1, h2⟩
        · exact loopCount_continue maxOps budget time rest (ops + 1) i hlt' (by omega)

theorem loopCount_stop (maxOps budget : Nat) (time : Nat → Nat) :
    ∀ (rq : List Elem) (ops : Nat),
      loopCount maxOps budget time ops rq < rq.length →
      maxOps ≤ ops + loopCount maxOps budget time ops rq ∨
        budget ≤ time (ops + loopCount maxOps budget time ops rq) - time 0
  | [], ops, h => by simp [loopCount] at h
  | e :: rest, ops, h => by
    by_cases h1 : maxOps ≤ ops + 1
    · simp only [loopCount, if_pos h1]
      left; omega
    · by_cases h2 : budget ≤ time (ops + 1) - time 0
      · simp only [loopCount, if_neg h1, if_pos h2]
        right
        simpa using h2
      · simp only [loopCount, if_neg h1, if_neg h2] at h ⊢
        have hrec := loopCount_stop maxOps budget time rest (ops + 1) (by
          simp only [List.length_cons] at h
          omega)
        rcases hrec with hl | hr
        · left; omega
        · right
          have : ops + 1 + loopCount maxOps budget time (ops + 1) rest =
              ops + (1 + loopCount maxOps budget time (ops + 1) rest) := by omega
          rwa [this] at hr

/-! ### flushQueue and invariant preservation -/

theorem scheduleFlush_fields (a : Bool) (s : SchedState) :
    (scheduleFlush a s).pendingQueue = s.pendingQueue ∧
    (scheduleFlush a s).pendingSet = s.pendingSet ∧
    (scheduleFlush a s).marked = s.marked := by
  unfold scheduleFlush
  split_ifs <;> simp

theorem queue_reverse_decomp (s : SchedState) (k : Nat) :
    s.pendingQueue =
      (s.pendingQueue.reverse.drop k).reverse ++ (s.pendingQueue.reverse.take k).reverse := by
  conv_lhs => rw [← List.reverse_reverse s.pendingQueue]
  rw [← List.reverse_append, List.take_append_drop]

theorem flushQueue_spec (maxOps budget : Nat) (time : Nat → Nat) (s : SchedState)
    (hne : s.pendingQueue ≠ []) :
    (flushQueue true maxOps budget time s).2 =
      s.pendingQueue.reverse.take (loopCount maxOps budget time 0 s.pendingQueue.reverse) ∧
    (flushQueue true maxOps budget time s).1.pendingQueue =
      (s.pendingQueue.reverse.drop
        (loopCount maxOps budget time 0 s.pendingQueue.reverse)).reverse := by
  have hempty : s.pendingQueue.isEmpty = false := by
    cases hq : s.pendingQueue
    · exact absurd hq hne
    · simp
  simp only [flushQueue, hempty, Bool.false_eq_true, if_false,
    drainLoop_eq, if_neg (by simp : ¬(true = false))]
  split_ifs with h
  · exact ⟨rfl, rfl⟩
  · exact ⟨rfl, (scheduleFlush_fields true _).1⟩

theorem storeInv_revealAll {s : SchedState} (h : StoreInv s) :
    StoreInv (revealAllPending s) := by
  rw [revealAllPending_of_inv h]
  exact ⟨rfl, rfl, List.nodup_nil⟩

theorem storeInv_scheduleFlush (a : Bool) {s : SchedState} (h : StoreInv s) :
    StoreInv (scheduleFlush a s) := by
  obtain ⟨h1, h2, h3⟩ := h
  obtain ⟨f1, f2, f3⟩ := scheduleFlush_fields a s
  exact ⟨by rw [f2, f1, h1], by rw [f3, f1, h2], by rw [f1]; exact h3⟩

theorem storeInv_flushQueue (a : Bool) (maxOps budget : Nat) (time : Nat → Nat)
    {s : SchedState} (h : StoreInv s) :
    StoreInv (flushQueue a maxOps budget time s).1 := by
  obtain ⟨hset, hmark, hnd⟩ := h
  have h0 : StoreInv { s with rafId := false } := ⟨hset, hmark, hnd⟩
  cases a with
  | false =>
    simp only [flushQueue, if_pos rfl]
    exact storeInv_revealAll h0
  | true =>
    by_cases hq : s.pendingQueue = []
    · simp only [flushQueue, if_neg (by simp : ¬(true = false))]
      have : ({ s with rafId := false } : SchedState).pendingQueue.isEmpty = true := by
        simp [hq]
      rw [if_pos this]
      exact ⟨hset, hmark, hnd⟩
    · have hempty : s.pendingQueue.isEmpty = false := by
        cases hqe : s.pendingQueue
        · exact absurd hqe hq
        · simp
      simp only [flushQueue, hempty, Bool.false_eq_true, if_false,
        drainLoop_eq, if_neg (by simp : ¬(true = false))]
      set k := loopCount maxOps budget time 0 s.pendingQueue.reverse with hk
      have hdecomp := queue_reverse_decomp s k
      have hndr : ((s.pendingQueue.reverse.drop k).reverse ++
          (s.pendingQueue.reverse.take k).reverse).Nodup := by
        rw [← hdecomp]; exact hnd
      have hfoldq : (s.pendingQueue.reverse.take k).foldl classRemove s.pendingQueue =
          (s.pendingQueue.reverse.drop k).reverse := by
        nth_rewrite 1 [hdecomp]
        exact foldl_classRemove_rev_append _ _ hndr
      have hinv1 : StoreInv
          { pendingQueue := (s.pendingQueue.reverse.drop k).reverse
            pendingSet := (s.pendingQueue.reverse.take k).foldl classRemove s.pendingSet
            marked := (s.pendingQueue.reverse.take k).foldl classRemove s.marked
            rafId := false
            isFlushing := s.isFlushing } := by
      -- the set and the class state both drain to the new queue
        refine ⟨?_, ?_, ?_⟩
        · show (s.pendingQueue.reverse.take k).foldl classRemove s.pendingSet =
            (s.pendingQueue.reverse.drop k).reverse
          rw [hset]; exact hfoldq
        · show (s.pendingQueue.reverse.take k).foldl classRemove s.marked =
            (s.pendingQueue.reverse.drop k).reverse
          rw [hmark]; exact hfoldq
        · exact List.Nodup.of_append_left hndr
      split_ifs with hif
      · exact ⟨hinv1.1, hinv1.2.1, hinv1.2.2⟩
      · exact storeInv_scheduleFlush true hinv1

theorem storeInv_walkEnqueue (t : DomTree) {s : SchedState} (h : StoreInv s) :
    StoreInv (walkEnqueue t s) :=
  storeInv_foldl_enqueue h _

theorem storeInv_enqueueTree (a anc : Bool) (t : DomTree) {s : SchedState}
    (h : StoreInv s) : StoreInv (enqueueTree a anc t s) := by
  simp only [enqueueTree]
  split_ifs with h1 h2 h3
  · exact h
  · exact h
  · exact storeInv_revealAll (storeInv_walkEnqueue t h)
  · exact storeInv_scheduleFlush a (storeInv_walkEnqueue t h)

theorem storeInv_handleMutations (a : Bool) (muts : List (List (Bool × DomTree)))
    {s : SchedState} (h : StoreInv s) : StoreInv (handleMutations a muts s) := by
  unfold handleMutations
  split_ifs with h1
  · exact h
  · induction muts generalizing s with
    | nil => exact h
    | cons rec muts ih =>
      rw [List.foldl_cons]
      refine ih ?_
      induction rec generalizing s with
      | nil => exact h
      | cons p rec ihr =>
        rw [List.foldl_cons]
        exact ihr (storeInv_enqueueTree a p.1 p.2 h)

theorem storeInv_activeListener (v : Bool) {s : SchedState} (h : StoreInv s) :
    StoreInv (activeListener v s) := by
  unfold activeListener
  split_ifs with h1
  · exact storeInv_revealAll h
  · exact storeInv_scheduleFlush v h

theorem storeInv_stepOp {w : World} (h : StoreInv w.sched) (op : SchedOp) :
    StoreInv (stepOp w op).sched := by
  cases op with
  | mutations muts => exact storeInv_handleMutations _ muts h
  | flush maxOps budget time => exact storeInv_flushQueue _ maxOps budget time h
  | setActive v => exact storeInv_activeListener v h
  | teardown => exact storeInv_revealAll h

theorem storeInv_runOps (ops : List SchedOp) : StoreInv (runOps ops).sched := by
  have : ∀ (l : List SchedOp) (w : World), StoreInv w.sched →
      StoreInv (l.foldl stepOp w).sched := by
    intro l
    induction l with
    | nil => intro w hw; exact hw
    | cons op l ih => intro w hw; exact ih _ (storeInv_stepOp hw op)
  exact this ops initWorld StoreInv_initState

/-! ### Lemmas about the intake walk -/

theorem mem_acceptedNodesList {e : Elem} :
    ∀ {cs : List DomTree}, e ∈ acceptedNodesList cs ↔ ∃ c ∈ cs, e ∈ acceptedNodes c
  | [] => by simp [acceptedNodesList]
  | c :: cs => by
    simp [acceptedNodesList, List.mem_append, @mem_acceptedNodesList e cs]

theorem mem_elemsList {e : Elem} :
    ∀ {cs : List DomTree}, e ∈ elemsList cs ↔ ∃ c ∈ cs, e ∈ elems c
  | [] => by simp [elemsList]
  | c :: cs => by
    simp [elemsList, List.mem_append, @mem_elemsList e cs]

theorem el_mem_elems (t : DomTree) : t.el ∈ elems t := by
  cases t
  simp [elems, DomTree.el]

theorem acceptedNodes_subset_elems :
    ∀ (t : DomTree) (e : Elem), e ∈ acceptedNodes t → e ∈ elems t := by
  intro t
  induction t using domInd with
  | h el tg i g cs ih =>
    intro e he
    simp only [acceptedNodes] at he
    have hstep : e ∈ acceptedNodesList cs → e ∈ elemsList cs := by
      intro hmem
      obtain ⟨c, hc, hec⟩ := mem_acceptedNodesList.mp hmem
      exact mem_elemsList.mpr ⟨c, hc, ih c hc e hec⟩
    simp only [elems, List.mem_cons]
    split_ifs at he with h1 h2
    · exact Or.inr (hstep he)
    · exact absurd he (List.not_mem_nil e)
    · rcases List.mem_cons.mp he with rfl | hmem
      · exact Or.inl rfl
      · exact Or.inr (hstep hmem)

theorem elems_sublist_elemsList :
    ∀ (cs : List DomTree) (c : DomTree), c ∈ cs → (elems c).Sublist (elemsList cs)
  | [], c, h => absurd h (List.not_mem_nil c)
  | c0 :: cs, c, h => by
    rcases List.mem_cons.mp h with rfl | hmem
    · simp only [elemsList]
      exact List.sublist_append_left (elems c) (elemsList cs)
    · have := elems_sublist_elemsList cs c hmem
      simpa [elemsList] using this.trans (List.sublist_append_right (elems c0) (elemsList cs))

theorem elems_sublist_of_occursIn {n t : DomTree} (h : occursIn n t) :
    (elems n).Sublist (elems t) := by
  induction h with
  | refl => exact List.Sublist.refl _
  | child hc hocc ih =>
    rename_i c t'
    refine ih.trans ?_
    cases t' with
    | node el tg i g cs =>
      simp only [DomTree.children] at hc
      have h1 := elems_sublist_elemsList cs c hc
      simp only [elems]
      exact h1.trans (List.sublist_cons_self el (elemsList cs))

theorem nodup_elems_of_occursIn {n t : DomTree} (h : occursIn n t)
    (hnd : (elems t).Nodup) : (elems n).Nodup :=
  (elems_sublist_of_occursIn h).nodup hnd

theorem elemsList_disjoint {cs : List DomTree} (hnd : (elemsList cs).Nodup) :
    ∀ {c c' : DomTree} {e : Elem}, c ∈ cs → c' ∈ cs →
      e ∈ elems c → e ∈ elems c' → c = c' := by
  induction cs with
  | nil => intro c c' e h; exact absurd h (List.not_mem_nil c)
  | cons c0 cs ih =>
    intro c c' e hc hc' hec hec'
    simp only [elemsList] at hnd
    rw [List.nodup_append] at hnd
    obtain ⟨hnd0, hnds, hdisj⟩ := hnd
    rcases List.mem_cons.mp hc with rfl | hmc <;> rcases List.mem_cons.mp hc' with rfl | hmc'
    · rfl
    · exact absurd (mem_elemsList.mpr ⟨c', hmc', hec'⟩) (by intro hx; exact hdisj hec hx)
    · exact absurd (mem_elemsList.mpr ⟨c, hmc, hec⟩) (by intro hx; exact hdisj hec' hx)
    · exact ih hnds hmc hmc' hec hec'

theorem not_mem_acceptedNodesList {cs : List DomTree} {c : DomTree} {e : Elem}
    (hnd : (elemsList cs).Nodup) (hc : c ∈ cs) (he : e ∈ elems c)
    (hna : e ∉ acceptedNodes c) : e ∉ acceptedNodesList cs := by
  intro hmem
  obtain ⟨c', hc', hec'⟩ := mem_acceptedNodesList.mp hmem
  have he' : e ∈ elems c' := acceptedNodes_subset_elems c' e hec'
  have : c = c' := elemsList_disjoint hnd hc hc' he he'
  exact hna (this ▸ hec')

theorem ignore_accepted_nil {t : DomTree} (hig : t.ignore = true)
    (hsk : shouldSkipElement t = false) : acceptedNodes t = [] := by
  cases t with
  | node el tg i g cs =>
    simp only [DomTree.ignore] at hig
    subst hig
    simp [acceptedNodes, hsk]

theorem skip_not_self_accepted {t : DomTree} (hsk : shouldSkipElement t = true)
    (hnd : (elems t).Nodup) : t.el ∉ acceptedNodes t := by
  cases t with
  | node el tg i g cs =>
    simp only [acceptedNodes, hsk, if_true, DomTree.el]
    intro hmem
    obtain ⟨c, hc, hec⟩ := mem_acceptedNodesList.mp hmem
    have : el ∈ elemsList cs :=
      mem_elemsList.mpr ⟨c, hc, acceptedNodes_subset_elems c el hec⟩
    simp only [elems, List.nodup_cons] at hnd
    exact hnd.1 this

theorem not_accepted_of_occursIn {n t : DomTree} (hocc : occursIn n t) :
    ∀ {e : Elem}, (elems t).Nodup → e ∈ elems n → e ∉ acceptedNodes n →
      e ∉ acceptedNodes t := by
  induction hocc with
  | refl => intro e _ _ hna; exact hna
  | child hc hocc ih =>
    rename_i c t'
    intro e hnd hen hna hmem
    cases t' with
    | node el tg i g cs =>
      simp only [DomTree.children] at hc
      simp only [elems, List.nodup_cons] at hnd
      have hndl : (elemsList cs).Nodup := hnd.2
      have hndc : (elems c).Nodup := (elems_sublist_elemsList cs c hc).nodup hndl
      have henc : e ∈ elems c := (elems_sublist_of_occursIn hocc).subset hen
      have hnac : e ∉ acceptedNodes c := ih hndc hen hna
      have hnal : e ∉ acceptedNodesList cs :=
        not_mem_acceptedNodesList hndl hc henc hnac
      have hne : e ≠ el := by
        rintro rfl
        exact hnd.1 (mem_elemsList.mpr ⟨c, hc, henc⟩)
      simp only [acceptedNodes] at hmem
      split_ifs at hmem with h1 h2
      · exact hnal hmem
      · exact List.not_mem_nil e hmem
      · rcases List.mem_cons.mp hmem with rfl | hx
        · exact hne rfl
        · exact hnal hx

theorem mem_walkEnqueue_pendingSet {t : DomTree} {s : SchedState} {e : Elem} :
    e ∈ (walkEnqueue t s).pendingSet ↔
      e ∈ s.pendingSet ∨ e = t.el ∨ e ∈ acceptedNodesList t.children := by
  unfold walkEnqueue
  rw [mem_pendingSet_foldl_enqueue]
  simp

theorem mem_enqueueTree_pendingSet {a anc : Bool} {t : DomTree} {s : SchedState} {e : Elem}
    (hs : e ∉ s.pendingSet) (h1 : e ≠ t.el) (h2 : e ∉ acceptedNodesList t.children) :
    e ∉ (enqueueTree a anc t s).pendingSet := by
  simp only [enqueueTree]
  split_ifs with hb1 hb2 hb3
  · exact hs
  · exact hs
  · simp [revealAllPending]
  · rw [(scheduleFlush_fields a _).2.1]
    rw [mem_walkEnqueue_pendingSet]
    rintro (h | h | h)
    · exact hs h
    · exact h1 h
    · exact h2 h

/-! ### Helper facts for concrete scenarios -/

theorem storeInv_scenarioA : StoreInv scenarioAState :=
  storeInv_foldl_enqueue StoreInv_initState [1, 2, 3, 4, 5]

/-! ### Claim theorems -/

/-- C9: the Reveal Action (removing the pending class from a node's class
list) is idempotent — applying it twice yields the same class state as
applying it once — and applying it to a node that does not carry the marker
has no observable effect.  A DOM class list never contains duplicates, hence
the `Nodup` hypothesis. -/
theorem C9_reveal_idempotent (m : List Elem) (e : Elem) (hnd : m.Nodup) :
    classRemove (classRemove m e) e = classRemove m e ∧
    (e ∉ m → classRemove m e = m) := by
  refine ⟨?_, fun he => by simp [classRemove, List.erase_of_not_mem he]⟩
  have hnot : e ∉ m.erase e := by
    intro hx
    exact ((hnd.mem_erase_iff).mp hx).1 rfl
  simp [classRemove, List.erase_of_not_mem hnot]

theorem C9_reveal_idempotent_witness :
    classRemove (classRemove [1, 2] 1) 1 = classRemove [1, 2] 1 ∧
    (1 ∉ [1, 2] → classRemove [1, 2] 1 = [1, 2]) :=
  C9_reveal_idempotent [1, 2] 1 (by decide)

/-- C10: every invocation of `flushQueue` with `active = true` and a
non-empty pending queue reveals at least one element, for every
configuration (including `maxOps = 1` and a time budget already exhausted
at the start), because both budget checks run only after the first reveal;
hence the backlog strictly decreases on every flush step. -/
theorem C10_flush_progress (s : SchedState) (maxOps budget : Nat) (time : Nat → Nat)
    (hne : s.pendingQueue ≠ []) :
    1 ≤ (flushQueue true maxOps budget time s).2.length ∧
    (flushQueue true maxOps budget time s).1.pendingQueue.length <
      s.pendingQueue.length := by
  obtain ⟨hrev, hq⟩ := flushQueue_spec maxOps budget time s hne
  have hrne : s.pendingQueue.reverse ≠ [] := by
    simpa using hne
  have hk1 : 1 ≤ loopCount maxOps budget time 0 s.pendingQueue.reverse :=
    loopCount_pos maxOps budget time s.pendingQueue.reverse 0 hrne
  have hlen : 1 ≤ s.pendingQueue.length := by
    cases hq0 : s.pendingQueue
    · exact absurd hq0 hne
    · simp
  constructor
  · rw [hrev, List.length_take, List.length_reverse]
    exact le_min hk1 hlen
  · rw [hq]
    simp only [List.length_reverse, List.length_drop]
    omega

theorem C10_flush_progress_witness :
    1 ≤ (flushQueue true 1 0 (fun _ => 7) scenarioAState).2.length ∧
    (flushQueue true 1 0 (fun _ => 7) scenarioAState).1.pendingQueue.length <
      scenarioAState.pendingQueue.length :=
  C10_flush_progress scenarioAState 1 0 (fun _ => 7) (by decide)

/-- C2: a single invocation of `flushQueue` (with the system active) reveals
at most `maxOps` elements; after each single reveal the loop re-checks its
budget — the count check before the elapsed-time check, as in `drainLoop` —
and stops as soon as either limit is reached: while the loop was still
running neither limit had been reached, and if the loop stopped with work
remaining then one of the two limits had been reached at the stopping
point. -/
theorem C2_flush_budget (s : SchedState) (maxOps budget : Nat) (time : Nat → Nat)
    (hpos : 0 < maxOps) :
    (flushQueue true maxOps budget time s).2.length ≤ maxOps ∧
    (∀ i, 0 < i → i < (flushQueue true maxOps budget time s).2.length →
      ¬ maxOps ≤ i ∧ ¬ budget ≤ time i - time 0) ∧
    ((flushQueue true maxOps budget time s).2.length < s.pendingQueue.length →
      maxOps ≤ (flushQueue true maxOps budget time s).2.length ∨
        budget ≤ time ((flushQueue true maxOps budget time s).2.length) - time 0) := by
  by_cases hne : s.pendingQueue = []
  · have hrev : (flushQueue true maxOps budget time s).2 = [] := by
      simp [flushQueue, hne]
    rw [hrev]
    refine ⟨Nat.zero_le _, ?_, ?_⟩
    · intro i h1 h2
      simp at h2
    · intro h
      simp [hne] at h
  · obtain ⟨hrev, _⟩ := flushQueue_spec maxOps budget time s hne
    have hkle := loopCount_le_length maxOps budget time s.pendingQueue.reverse 0
    have hlen : (flushQueue true maxOps budget time s).2.length =
        loopCount maxOps budget time 0 s.pendingQueue.reverse := by
      rw [hrev, List.length_take, List.length_reverse]
      have : loopCount maxOps budget time 0 s.pendingQueue.reverse ≤
          s.pendingQueue.length := by
        simpa using hkle
      omega
    refine ⟨?_, ?_, ?_⟩
    · rw [hlen]
      have := loopCount_le_maxOps maxOps budget time s.pendingQueue.reverse 0 hpos
      omega
    · intro i h1 h2
      rw [hlen] at h2
      exact loopCount_continue maxOps budget time s.pendingQueue.reverse 0 i h1
        (by omega)
    · intro hrem
      rw [hlen] at hrem ⊢
      have := loopCount_stop maxOps budget time s.pendingQueue.reverse 0
        (by rw [List.length_reverse] at hkle ⊢; omega)
      simpa using this

theorem C2_flush_budget_witness :
    (flushQueue true 2 5 (fun i => i) scenarioAState).2.length ≤ 2 :=
  (C2_flush_budget scenarioAState 2 5 (fun i => i) (by decide)).1

/-- C4: draining is last-in-first-out — every flush step removes elements
from the most recent end of the pending queue, so the original queue is the
remaining queue followed by the reveals in reverse order — and the concrete
Scenario A holds: with `maxOps = 2`, an unlimited time budget, and enqueue
order `[1..5]` (`A`..`E`), flush 1 reveals `[5, 4]` leaving `[1, 2, 3]`,
flush 2 reveals `[3, 2]` leaving `[1]`, flush 3 reveals `[1]` and the
scheduler returns to idle (`isFlushing = false`, no callback scheduled). -/
theorem C4_lifo_drain (s : SchedState) (maxOps budget : Nat) (time : Nat → Nat)
    (hne : s.pendingQueue ≠ []) :
    s.pendingQueue =
      (flushQueue true maxOps budget time s).1.pendingQueue ++
        (flushQueue true maxOps budget time s).2.reverse ∧
    (flushQueue true 2 1000000 unlimitedClock scenarioAState).2 = [5, 4] ∧
    (flushQueue true 2 1000000 unlimitedClock scenarioAState).1.pendingQueue = [1, 2, 3] ∧
    (flushQueue true 2 1000000 unlimitedClock
      (flushQueue true 2 1000000 unlimitedClock scenarioAState).1).2 = [3, 2] ∧
    (flushQueue true 2 1000000 unlimitedClock
      (flushQueue true 2 1000000 unlimitedClock scenarioAState).1).1.pendingQueue = [1] ∧
    (flushQueue true 2 1000000 unlimitedClock
      (flushQueue true 2 1000000 unlimitedClock
        (flushQueue true 2 1000000 unlimitedClock scenarioAState).1).1).2 = [1] ∧
    (flushQueue true 2 1000000 unlimitedClock
      (flushQueue true 2 1000000 unlimitedClock
        (flushQueue true 2 1000000 unlimitedClock scenarioAState).1).1).1 =
      { pendingQueue := [], pendingSet := [], marked := [], rafId := false,
        isFlushing := false } := by
  obtain ⟨hrev, hq⟩ := flushQueue_spec maxOps budget time s hne
  refine ⟨?_, by decide, by decide, by decide, by decide, by decide, by decide⟩
  rw [hrev, hq]
  exact queue_reverse_decomp s _

theorem C4_lifo_drain_witness :
    scenarioAState.pendingQueue =
      (flushQueue true 2 1000000 unlimitedClock scenarioAState).1.pendingQueue ++
        (flushQueue true 2 1000000 unlimitedClock scenarioAState).2.reverse :=
  (C4_lifo_drain scenarioAState 2 1000000 unlimitedClock (by decide)).1

/-- C5: for every sequence of scheduler operations (mutation intake, flush
steps, enable/disable, teardown) starting from the initial state, the
pending membership set and the pending order sequence stay in lock-step
(equal lengths) and neither ever contains a duplicate reference; and
enqueueing an already-present reference is a no-op. -/
theorem C5_set_queue_lockstep :
    (∀ ops : List SchedOp,
      (runOps ops).sched.pendingSet.length = (runOps ops).sched.pendingQueue.length ∧
      (runOps ops).sched.pendingQueue.Nodup ∧
      (runOps ops).sched.pendingSet.Nodup) ∧
    (∀ (s : SchedState) (e : Elem), e ∈ s.pendingSet → enqueueElement s e = s) := by
  constructor
  · intro ops
    obtain ⟨h1, _, h3⟩ := storeInv_runOps ops
    exact ⟨by rw [h1], h3, by rw [h1]; exact h3⟩
  · intro s e he
    exact enqueueElement_of_mem he

theorem C5_set_queue_lockstep_witness :
    enqueueElement scenarioAState 3 = scenarioAState :=
  C5_set_queue_lockstep.2 scenarioAState 3 (by decide)

/-- C1: at every observable point — after any sequence of mutation batches
(enqueues), flush steps, enable/disable events (mass reveal), and teardown —
an element carries the pending CSS class if and only if its reference is
currently in the Pending Store (equivalently the pending set or the pending
queue). -/
theorem C1_marker_iff_pending (ops : List SchedOp) (e : Elem) :
    (e ∈ (runOps ops).sched.marked ↔ e ∈ (runOps ops).sched.pendingSet) ∧
    (e ∈ (runOps ops).sched.marked ↔ e ∈ (runOps ops).sched.pendingQueue) := by
  obtain ⟨h1, h2, _⟩ := storeInv_runOps ops
  rw [h1, h2]
  exact ⟨Iff.rfl, Iff.rfl⟩

/-- C8: setting `active` to `false` while nodes are pending reveals every
pending node immediately — the store is emptied, every pending class is
removed, any scheduled frame callback is canceled and the scheduler is idle —
and while `active` is `false` the mutation handler and the intake walk leave
the state untouched, and a flush callback firing performs the same mass
reveal. -/
theorem C8_disable_reveals_and_suppresses :
    (∀ s : SchedState, StoreInv s →
      activeListener false s =
        { pendingQueue := [], pendingSet := [], marked := [], rafId := false,
          isFlushing := false }) ∧
    (∀ (anc : Bool) (t : DomTree) (s : SchedState), enqueueTree false anc t s = s) ∧
    (∀ (muts : List (List (Bool × DomTree))) (s : SchedState),
      handleMutations false muts s = s) ∧
    (∀ (maxOps budget : Nat) (time : Nat → Nat) (s : SchedState), StoreInv s →
      (flushQueue false maxOps budget time s).1 =
        { pendingQueue := [], pendingSet := [], marked := [], rafId := false,
          isFlushing := false }) := by
  refine ⟨?_, ?_, ?_, ?_⟩
  · intro s hinv
    simp only [activeListener, if_pos rfl]
    exact revealAllPending_of_inv hinv
  · intro anc t s
    simp [enqueueTree]
  · intro muts s
    simp [handleMutations]
  · intro maxOps budget time s hinv
    obtain ⟨h1, h2, h3⟩ := hinv
    simp only [flushQueue, if_pos rfl]
    exact revealAllPending_of_inv ⟨h1, h2, h3⟩

theorem C8_disable_witness :
    activeListener false scenarioAState =
      { pendingQueue := [], pendingSet := [], marked := [], rafId := false,
        isFlushing := false } :=
  C8_disable_reveals_and_suppresses.1 scenarioAState storeInv_scenarioA

theorem acceptedNodes_leafDiv (e : Elem) : acceptedNodes (leafDiv e) = [e] := by
  simp [leafDiv, acceptedNodes, acceptedNodesList, shouldSkipElement,
    DomTree.idStr, DomTree.tag, EXCLUDED_TAGS]

theorem acceptedNodesList_map_leafDiv (l : List Nat) :
    acceptedNodesList (l.map (fun i => leafDiv (i + 1))) = l.map (fun i => i + 1) := by
  induction l with
  | nil => rfl
  | cons a l ih => simp [acceptedNodesList, acceptedNodes_leafDiv, ih]

theorem walkEnqueue_overflowTree_queue :
    (walkEnqueue overflowTree initState).pendingQueue =
      0 :: (List.range QUEUE_LIMIT).map (fun i => i + 1) := by
  have hL : (overflowTree.el :: acceptedNodesList overflowTree.children) =
      0 :: (List.range QUEUE_LIMIT).map (fun i => i + 1) := by
    simp [overflowTree, DomTree.el, DomTree.children, acceptedNodesList_map_leafDiv]
  unfold walkEnqueue
  rw [hL, foldl_enqueue_fresh _ initState ?_ ?_]
  · simp [initState]
  · refine List.nodup_cons.mpr ⟨?_, ?_⟩
    · simp
    · exact List.Nodup.map (fun a b h => by simpa using h) (List.nodup_range _)
  · intro e he
    simp [initState]

/-- C3: when, after the walk of one inserted subtree, the pending queue has
reached `QUEUE_LIMIT` (4000), the intake step performs `revealAllPending`
synchronously: every pending element loses the pending class, both store
structures are emptied, any scheduled frame callback is canceled and the
flush state is idle. -/
theorem C3_overflow_reveals_all (t : DomTree) (anc : Bool) (s : SchedState)
    (hinv : StoreInv s) (hanc : anc = false) (hig : t.ignore = false)
    (hlen : QUEUE_LIMIT ≤ (walkEnqueue t s).pendingQueue.length) :
    enqueueTree true anc t s =
      { pendingQueue := [], pendingSet := [], marked := [], rafId := false,
        isFlushing := false } := by
  subst hanc
  simp only [enqueueTree, Bool.false_or, hig, Bool.false_eq_true, Bool.true_eq_false,
    reduceIte, if_pos hlen]
  exact revealAllPending_of_inv (storeInv_walkEnqueue t hinv)

theorem C3_overflow_witness :
    enqueueTree true false overflowTree initState =
      { pendingQueue := [], pendingSet := [], marked := [], rafId := false,
        isFlushing := false } :=
  C3_overflow_reveals_all overflowTree false initState StoreInv_initState rfl rfl
    (by rw [walkEnqueue_overflowTree_queue]; simp [QUEUE_LIMIT])

/-- C6 is refuted as stated: in `cexIgnoreSkipTree`, the node with element 1
carries the ignore attribute and the node with element 2 is its child, yet
element 2 ends up in the Pending Store after the intake step — the filter
tests the structural-skip condition (tag `STYLE` is excluded) before the
ignore attribute, returns FILTER_SKIP, and therefore still walks and
accepts the children of the ignore-marked node. -/
theorem C6_counterexample :
    (DomTree.node 1 "STYLE" "" true [DomTree.node 2 "DIV" "" false []]).ignore = true ∧
    (DomTree.node 1 "STYLE" "" true [DomTree.node 2 "DIV" "" false []]) ∈
      cexIgnoreSkipTree.children ∧
    2 ∈ elems (DomTree.node 1 "STYLE" "" true [DomTree.node 2 "DIV" "" false []]) ∧
    2 ∈ (enqueueTree true false cexIgnoreSkipTree initState).pendingSet := by
  refine ⟨rfl, ?_, by decide, by decide⟩
  simp [cexIgnoreSkipTree, DomTree.children]

/-- C6 (amended): if a node of an inserted subtree carries the ignore
attribute and is not itself skip-classified (excluded tag or the app-mount
id), then neither it nor any of its descendants is ever enqueued by that
intake step (element references in the walked subtree being distinct, and
the element not already pending); and an ignore marker on any ancestor
strictly above the inserted root suppresses the whole walk.  The
counterexample forces the not-skip-classified proviso: for a node that is
both ignore-marked and skip-classified, the skip test wins and its children
are still walked. -/
theorem C6_ignore_rejects_subtree (anc : Bool) (t nIg : DomTree) (s : SchedState)
    (e : Elem) (hocc : occursIn nIg t) (hig : nIg.ignore = true)
    (hsk : shouldSkipElement nIg = false) (hnd : (elems t).Nodup)
    (he : e ∈ elems nIg) (hs : e ∉ s.pendingSet) :
    e ∉ (enqueueTree true anc t s).pendingSet ∧
    (∀ (u : DomTree) (s' : SchedState), enqueueTree true true u s' = s') := by
  refine ⟨?_, fun u s' => by simp [enqueueTree]⟩
  simp only [enqueueTree]
  rw [if_neg (by simp : ¬(true = false))]
  by_cases hb : (anc || t.ignore) = true
  · rw [if_pos hb]
    exact hs
  · rw [if_neg hb]
    simp only [Bool.or_eq_true, not_or, Bool.not_eq_true] at hb
    show e ∉ (if QUEUE_LIMIT ≤ (walkEnqueue t s).pendingQueue.length then
        revealAllPending (walkEnqueue t s)
      else scheduleFlush true (walkEnqueue t s)).pendingSet
    have hmain : e ∉ (walkEnqueue t s).pendingSet := by
      rw [mem_walkEnqueue_pendingSet]
      rintro (h | h | h)
      · exact hs h
      · cases hocc with
        | refl => rw [hig] at hb; exact absurd hb.2 (by simp)
        | child hc hocc' =>
          rename_i c
          cases t with
          | node el tg i g cs =>
            simp only [DomTree.children] at hc
            simp only [DomTree.el] at h
            simp only [elems, List.nodup_cons] at hnd
            have henc : e ∈ elems c := (elems_sublist_of_occursIn hocc').subset he
            exact hnd.1 (h ▸ mem_elemsList.mpr ⟨c, hc, henc⟩)
      · cases hocc with
        | refl => rw [hig] at hb; exact absurd hb.2 (by simp)
        | child hc hocc' =>
          rename_i c
          cases t with
          | node el tg i g cs =>
            simp only [DomTree.children] at hc h
            simp only [elems, List.nodup_cons] at hnd
            have hndl := hnd.2
            have hndc : (elems c).Nodup := (elems_sublist_elemsList cs c hc).nodup hndl
            have henc : e ∈ elems c := (elems_sublist_of_occursIn hocc').subset he
            have hnacc : e ∉ acceptedNodes nIg := by
              rw [ignore_accepted_nil hig hsk]
              exact List.not_mem_nil e
            have hnc : e ∉ acceptedNodes c :=
              not_accepted_of_occursIn hocc' hndc he hnacc
            exact not_mem_acceptedNodesList hndl hc henc hnc h
    split_ifs with hover
    · simp [revealAllPending]
    · rw [(scheduleFlush_fields true _).2.1]
      exact hmain

theorem C6_ignore_witness :
    1 ∉ (enqueueTree true false scenarioCTree initState).pendingSet ∧
    2 ∉ (enqueueTree true false scenarioCTree initState).pendingSet :=
  ⟨(C6_ignore_rejects_subtree false scenarioCTree
      (DomTree.node 1 "DIV" "" true [DomTree.node 2 "DIV" "" false []]) initState 1
      (occursIn.child (by simp [scenarioCTree, DomTree.children]) (occursIn.refl _))
      rfl (by decide) (by decide) (by decide) (by decide)).1,
   (C6_ignore_rejects_subtree false scenarioCTree
      (DomTree.node 1 "DIV" "" true [DomTree.node 2 "DIV" "" false []]) initState 2
      (occursIn.child (by simp [scenarioCTree, DomTree.children]) (occursIn.refl _))
      rfl (by decide) (by decide) (by decide) (by decide)).1⟩

/-- C7 is refuted as stated: the root of an inserted subtree is enqueued
without the filter ever being applied to it (a `TreeWalker` does not filter
its root), so a subtree whose root is an excluded tag (`STYLE`) still gets
its root element (0) into the Pending Store. -/
theorem C7_counterexample :
    shouldSkipElement cexSkipRootTree = true ∧
    0 ∈ (enqueueTree true false cexSkipRootTree initState).pendingSet := by
  exact ⟨by decide, by decide⟩

/-- C7 (amended): every non-root element visited by the intake walk whose
tag is in the excluded set (or whose id is "app-mount") is itself never
enqueued (element references being distinct and the element not already
pending), while its children are still walked and classified individually —
`acceptedNodes` of a skip node is exactly the walk of its children; the
root of the inserted subtree, however, is enqueued unconditionally, because
the tree walker never applies its filter to the walker root. -/
theorem C7_skip_not_enqueued (t n : DomTree) (s : SchedState)
    (hocc : occursIn n t) (hsk : shouldSkipElement n = true)
    (hnd : (elems t).Nodup) (hne : n ≠ t) (hs : n.el ∉ s.pendingSet) :
    n.el ∉ (walkEnqueue t s).pendingSet ∧
    acceptedNodes n = acceptedNodesList n.children ∧
    (∀ (u : DomTree) (s' : SchedState), u.el ∈ (walkEnqueue u s').pendingSet) := by
  refine ⟨?_, ?_, ?_⟩
  · rw [mem_walkEnqueue_pendingSet]
    rintro (h | h | h)
    · exact hs h
    · cases hocc with
      | refl => exact hne rfl
      | child hc hocc' =>
        rename_i c
        cases t with
        | node el tg i g cs =>
          simp only [DomTree.children] at hc
          simp only [DomTree.el] at h
          simp only [elems, List.nodup_cons] at hnd
          have henc : n.el ∈ elems c :=
            (elems_sublist_of_occursIn hocc').subset (el_mem_elems n)
          exact hnd.1 (h ▸ mem_elemsList.mpr ⟨c, hc, henc⟩)
    · cases hocc with
      | refl => exact hne rfl
      | child hc hocc' =>
        rename_i c
        cases t with
        | node el tg i g cs =>
          simp only [DomTree.children] at hc h
          simp only [elems, List.nodup_cons] at hnd
          have hndl := hnd.2
          have hndc : (elems c).Nodup := (elems_sublist_elemsList cs c hc).nodup hndl
          have hndn : (elems n).Nodup := (elems_sublist_of_occursIn hocc').nodup hndc
          have henc : n.el ∈ elems c :=
            (elems_sublist_of_occursIn hocc').subset (el_mem_elems n)
          have hnn : n.el ∉ acceptedNodes n := skip_not_self_accepted hsk hndn
          have hnc : n.el ∉ acceptedNodes c :=
            not_accepted_of_occursIn hocc' hndc (el_mem_elems n) hnn
          exact not_mem_acceptedNodesList hndl hc henc hnc h
  · cases n with
    | node el tg i g cs =>
      simp only [acceptedNodes, hsk, if_true, DomTree.children]
  · intro u s'
    rw [mem_walkEnqueue_pendingSet]
    exact Or.inr (Or.inl rfl)

theorem C7_skip_witness :
    (DomTree.node 1 "STYLE" "" true [DomTree.node 2 "DIV" "" false []]).el ∉
      (walkEnqueue cexIgnoreSkipTree initState).pendingSet :=
  (C7_skip_not_enqueued cexIgnoreSkipTree
    (DomTree.node 1 "STYLE" "" true [DomTree.node 2 "DIV" "" false []]) initState
    (occursIn.child (by simp [cexIgnoreSkipTree, DomTree.children]) (occursIn.refl _))
    (by decide) (by decide)
    (fun h => absurd (congrArg DomTree.el h) (by decide))
    (by decide)).1
